import Mathlib

/-!
A shallow embedding of the rustoji emoji picker (src/main.rs) and proofs about
its candidate emission, selection resolution, clipboard dispatch, argument
parsing and history bookkeeping.

Strings are modelled as lists of characters; u32 usage counts are modelled as
natural numbers below 2^32, with the history increment wrapping modulo 2^32
exactly as release-build u32 addition does; the `HashMap`s for history and
the Unicode catalog are modelled as association lists with a fixed iteration
order, which is exactly the granularity at which the program observes them.
-/

namespace Rustoji

/-- Strings from the Rust source, modelled as lists of characters. -/
abbrev Str := List Char

/-- The literal ".png" suffix used by `ends_with(".png")` checks. -/
def pngSuffix : Str := ".png".toList

/-- Model of Rust `str::ends_with`. -/
def endsWith (s suf : Str) : Bool := decide (suf <:+ s)

/-- Model of Rust `str::split_once(c)`: split at the first occurrence of
`c`, dropping the separator; `none` when `c` does not occur. -/
def splitOnce (c : Char) : Str → Option (Str × Str)
  | [] => none
  | x :: xs =>
    if x = c then some ([], xs)
    else (splitOnce c xs).map (fun p => (x :: p.1, p.2))

/-- Errors that terminate a run: the invalid-selection error from main.rs
lines 59-64, and propagated I/O errors. -/
inductive RunError where
  | invalidData
  | ioError
  | panicked
deriving DecidableEq

deriving instance DecidableEq for Except

/-- Selection Resolver, main.rs lines 54-66: a line ending in ".png" is a PNG
selection whose identity is the whole line; otherwise the line is split at
the first space into the pair (emoji, emoji_name); a non-PNG line without a
space is an invalid-data error. -/
def resolveSelection (output : Str) : Except RunError (Str × Str) :=
  if endsWith output pngSuffix then .ok (output, output)
  else
    match splitOnce ' ' output with
    | some p => .ok p
    | none => .error .invalidData

/-- Association-list lookup, modelling `HashMap::get` on a mapping with a
fixed iteration order. -/
def lookupAssoc {α : Type} : List (Str × α) → Str → Option α
  | [], _ => none
  | (k, v) :: rest, key => if k = key then some v else lookupAssoc rest key

/-- Boolean membership, modelling `Vec::contains`. -/
def memStr (x : Str) (l : List Str) : Bool := decide (x ∈ l)

/-- Model of Rust `Path::extension` on a bare file name: the portion after
the last dot, unless there is no dot or the only relevant dot is the leading
character (a hidden file like ".png" has no extension). -/
def rustExtension (name : Str) : Option Str :=
  match splitOnce '.' name.reverse with
  | none => none
  | some (extRev, stemRev) => if stemRev = [] then none else some extRev.reverse

/-- The "png" extension string compared against `Path::extension`. -/
def pngExt : Str := "png".toList

/-- One entry of the assets-directory listing: its file name and whether it
is a regular file. -/
structure DirEntry where
  name : Str
  isFile : Bool
deriving DecidableEq

/-- Loop body of collect_png_emojis_and_filter (main.rs lines 178-187): skip
entries whose name is in the filter-out list, keep regular files with
extension "png", in directory order. -/
def collectLoop (emojisToFilterOut : List Str) : List DirEntry → List Str
  | [] => []
  | e :: es =>
    if memStr e.name emojisToFilterOut then collectLoop emojisToFilterOut es
    else if e.isFile && decide (rustExtension e.name = some pngExt) then
      e.name :: collectLoop emojisToFilterOut es
    else collectLoop emojisToFilterOut es

/-- PNG candidate collection, main.rs lines 172-190: a missing directory
(`none`) yields the empty list; otherwise the directory listing is scanned.
The result holds the file names (the source stores full paths; the name is
recovered from the path wherever it is used). -/
def collect_png_emojis_and_filter (dir : Option (List DirEntry)) (emojisToFilterOut : List Str) : List Str :=
  match dir with
  | none => []
  | some entries => collectLoop emojisToFilterOut entries

/-- Ranking relation of the history sort at main.rs line 34
(`sort_by(|a, b| b.1.cmp(a.1))`): a comes no later than b when b's usage
count is at most a's. -/
def countGE (a b : Str × Nat) : Prop := b.2 ≤ a.2

instance : DecidableRel countGE := fun a b => inferInstanceAs (Decidable (b.2 ≤ a.2))

instance : IsTotal (Str × Nat) countGE := ⟨fun a b => Nat.le_total b.2 a.2⟩

instance : IsTrans (Str × Nat) countGE := ⟨fun _ _ _ h1 h2 => Nat.le_trans h2 h1⟩

/-- Ranked history identities, main.rs lines 33-35: the history mapping in
its iteration order, stably sorted by descending count (Rust `sort_by` is a
stable sort, here realised as insertion sort), keys only. -/
def sorted_history (history : List (Str × Nat)) : List Str :=
  (List.insertionSort countGE history).map Prod.fst

/-- The "\0icon\x1f" separator of the PNG candidate line format. -/
def iconSep : Str := Char.ofNat 0 :: ("icon".toList ++ [Char.ofNat 31])

/-- Model of `PathBuf::join` for the relative file names this program joins. -/
def pathJoin (dir name : Str) : Str := dir ++ ('/' :: name)

/-- Candidate line for a PNG emoji (main.rs lines 214 and 223):
`"<file-name>\0icon\x1f<absolute-path>"`. -/
def pngLine (assets name : Str) : Str := name ++ iconSep ++ pathJoin assets name

/-- Candidate line for a Unicode catalog entry (main.rs lines 217 and 231):
the catalog value, a space, then the catalog key. -/
def unicodeLine (key value : Str) : Str := value ++ (' ' :: key)

/-- The line a history identity would contribute: PNG format when the
identity ends in ".png", otherwise the Unicode format via catalog lookup
(none when the lookup fails). -/
def histLineOf (assets : Str) (unicodeEmojis : List (Str × Str)) (emoji : Str) : Option Str :=
  if endsWith emoji pngSuffix then some (pngLine assets emoji)
  else (lookupAssoc unicodeEmojis emoji).map (fun v => unicodeLine emoji v)

/-- History loop of run_picker (main.rs lines 211-219), writing one line per
ranked history identity; the `unwrap` on a failed catalog lookup panics,
modelled as the `panicked` error. -/
def histLoop (assets : Str) (unicodeEmojis : List (Str × Str)) (acc : List Str) : List Str → Except RunError (List Str)
  | [] => .ok acc
  | emoji :: rest =>
    if endsWith emoji pngSuffix then
      histLoop assets unicodeEmojis (acc ++ [pngLine assets emoji]) rest
    else
      match lookupAssoc unicodeEmojis emoji with
      | some v => histLoop assets unicodeEmojis (acc ++ [unicodeLine emoji v]) rest
      | none => .error .panicked

/-- Candidate feed of run_picker (main.rs lines 210-233): the sequence of
lines written to the picker's stdin — ranked history candidates, then the
scanned PNG candidates, then the catalog entries whose key is not among the
ranked history identities, in catalog iteration order. -/
def feedLines (assets : Str) (unicodeEmojis : List (Str × Str)) (sortedHistory : List Str) (pngEmojis : List Str) : Except RunError (List Str) :=
  match histLoop assets unicodeEmojis [] sortedHistory with
  | .error e => .error e
  | .ok acc1 =>
    let acc2 := pngEmojis.foldl (fun acc n => acc ++ [pngLine assets n]) acc1
    let acc3 := (unicodeEmojis.filter (fun kv => !(memStr kv.1 sortedHistory))).foldl
      (fun acc kv => acc ++ [unicodeLine kv.1 kv.2]) acc2
    .ok acc3

/-- History-bookkeeping identity of every emitted candidate, in emission
order: history identities first (ranked), then scanned PNG file names, then
the keys of the catalog entries that survive the history filter. -/
def emittedIdentities (dir : Option (List DirEntry)) (unicodeEmojis : List (Str × Str)) (history : List (Str × Nat)) : List Str :=
  let ranked := sorted_history history
  ranked ++ collect_png_emojis_and_filter dir ranked
    ++ (unicodeEmojis.filter (fun kv => !(memStr kv.1 ranked))).map Prod.fst

/-- The supported-picker table (main.rs line 15). -/
def SUPPORTED_PICKERS : List Str := ["fuzzel".toList, "bemenu".toList]

/-- Model of `str::to_lowercase` at the ASCII case folding this program
needs for its comparison against "false". -/
def lowerStr (s : Str) : Str := s.map Char.toLower

/-- Argument parsing, main.rs lines 124-138: args includes the program name
at index 0; the second positional argument (index 2) selects path-copy
unless it lowercases to "false"; the first positional argument (index 1)
selects the picker when it is in the supported set, else the default
(the first supported picker). -/
def parse_args (args : List Str) : Str × Bool :=
  let copyPngEmojiPath :=
    match args[2]? with
    | none => true
    | some a => decide (lowerStr a ≠ "false".toList)
  let picker :=
    match args[1]? with
    | some p => if memStr p SUPPORTED_PICKERS then p else SUPPORTED_PICKERS.getD 0 []
    | none => SUPPORTED_PICKERS.getD 0 []
  (picker, copyPngEmojiPath)

/-- One wl-copy invocation: its content type and payload. -/
inductive ClipCmd where
  | textPlain (text : Str)
  | uriList (uri : Str)
  | imagePng (bytes : List Nat)
deriving DecidableEq

/-- Clipboard dispatch, main.rs lines 87-122: non-PNG identities are copied
as text/plain; PNG identities as a file:// URI list in path mode, or as the
file's bytes (read via the `readFile` oracle; a failed read is the
propagated I/O error) in byte mode. -/
def copy_emoji_to_clipboard (readFile : Str → Option (List Nat)) (emoji : Str) (expandedPngEmojisPath : Str) (copyPngEmojiPath : Bool) : Except RunError ClipCmd :=
  if !(endsWith emoji pngSuffix) then .ok (.textPlain emoji)
  else
    let emojiPath := pathJoin expandedPngEmojisPath emoji
    if copyPngEmojiPath then .ok (.uriList ("file://".toList ++ emojiPath))
    else
      match readFile emojiPath with
      | some buffer => .ok (.imagePng buffer)
      | none => .error .ioError

/-- Size of the u32 counter type of the history counts: 2^32. -/
def u32Mod : Nat := 4294967296

/-- One u32 increment: the `+= 1` at main.rs line 72 on a u32 counter, which
in a release build wraps modulo 2^32 (a debug build would panic there
instead of persisting; either way the count does not reach 2^32). -/
def u32Add1 (c : Nat) : Nat := (c + 1) % u32Mod

/-- History increment, main.rs line 72 (`*history.entry(name).or_insert(0) += 1`):
bump the u32 count of an existing key in place, or append the key with
count 1 (the increment of the inserted 0). -/
def incrHistory : List (Str × Nat) → Str → List (Str × Nat)
  | [], k => [(k, u32Add1 0)]
  | (k', c) :: rest, k =>
    if k' = k then (k', u32Add1 c) :: rest else (k', c) :: incrHistory rest k

/-- Usage count of a key in the history mapping, zero when absent. -/
def getCount (history : List (Str × Nat)) (k : Str) : Nat := (lookupAssoc history k).getD 0

/-- Observable outcome of the tail of main: the wl-copy invocation and its
exit status (if any), whether a notification was sent, the final history
mapping, and whether the history file was rewritten. -/
structure RunOutcome where
  clip : Option (ClipCmd × Nat)
  notified : Bool
  history : List (Str × Nat)
  historyWritten : Bool
deriving DecidableEq

/-- Tail of main (main.rs lines 50-77), from the trimmed picker output on:
empty output returns success immediately with no side effect; otherwise the
selection is resolved, dispatched to the clipboard (whose subprocess exit
status is the `clipStatus` oracle), a notification is sent, the resolved
identity's history count is incremented and the history file rewritten. -/
def mainAfterPicker (readFile : Str → Option (List Nat)) (clipStatus : Nat) (expandedPngEmojisPath : Str) (copyPngEmojiPath : Bool) (output : Str) (history : List (Str × Nat)) : Except RunError RunOutcome :=
  if output = [] then .ok ⟨none, false, history, false⟩
  else
    match resolveSelection output with
    | .error e => .error e
    | .ok (emoji, emojiName) =>
      match copy_emoji_to_clipboard readFile emoji expandedPngEmojisPath copyPngEmojiPath with
      | .error e => .error e
      | .ok cmd => .ok ⟨some (cmd, clipStatus), true, incrHistory history emojiName, true⟩

/-! ### Basic lemmas about the string-level helpers -/

lemma endsWith_iff {s suf : Str} : endsWith s suf = true ↔ suf <:+ s := by
  simp [endsWith]

lemma memStr_iff {x : Str} {l : List Str} : memStr x l = true ↔ x ∈ l := by
  simp [memStr]

lemma memStr_false_iff {x : Str} {l : List Str} : memStr x l = false ↔ x ∉ l := by
  simp [memStr]

lemma splitOnce_append {c : Char} {g : Str} (n : Str) (h : c ∉ g) :
    splitOnce c (g ++ c :: n) = some (g, n) := by
  induction g with
  | nil => simp [splitOnce]
  | cons x xs ih =>
    have hx : ¬ x = c := by rintro rfl; exact h (List.mem_cons_self x xs)
    have hxs : c ∉ xs := fun hm => h (List.mem_cons_of_mem x hm)
    simp [splitOnce, hx, ih hxs]

lemma splitOnce_eq_none {c : Char} {s : Str} (h : c ∉ s) : splitOnce c s = none := by
  induction s with
  | nil => rfl
  | cons x xs ih =>
    have hx : ¬ x = c := by rintro rfl; exact h (List.mem_cons_self x xs)
    have hxs : c ∉ xs := fun hm => h (List.mem_cons_of_mem x hm)
    simp [splitOnce, hx, ih hxs]

lemma splitOnce_sound {c : Char} : ∀ {s a b : Str}, splitOnce c s = some (a, b) →
    s = a ++ c :: b ∧ c ∉ a := by
  intro s
  induction s with
  | nil => intro a b h; simp [splitOnce] at h
  | cons x xs ih =>
    intro a b h
    by_cases hx : x = c
    · subst hx
      simp [splitOnce] at h
      obtain ⟨rfl, rfl⟩ := h
      simp
    · simp only [splitOnce, if_neg hx] at h
      cases hsp : splitOnce c xs with
      | none => rw [hsp] at h; simp at h
      | some q =>
        rw [hsp] at h
        obtain ⟨qa, qb⟩ := q
        obtain ⟨hs, hc⟩ := ih hsp
        simp only [Option.map] at h
        injection h with h2
        injection h2 with ha hb
        subst ha
        subst hb
        constructor
        · simp [hs]
        · intro hm
          rcases List.mem_cons.mp hm with h1 | h2
          · exact hx h1.symm
          · exact hc h2

lemma suffix_through_sep {c : Char} {s k : Str} (hc : c ∉ s) :
    ∀ g : Str, s <:+ g ++ c :: k → s <:+ k := by
  intro g
  induction g with
  | nil =>
    rintro ⟨t, ht⟩
    cases t with
    | nil =>
      simp only [List.nil_append] at ht
      subst ht
      exact absurd (List.mem_cons_self c k) hc
    | cons y t2 =>
      simp only [List.cons_append, List.nil_append] at ht
      injection ht with h1 h2
      exact ⟨t2, h2⟩
  | cons x g2 ih =>
    rintro ⟨t, ht⟩
    cases t with
    | nil =>
      simp only [List.nil_append, List.cons_append] at ht
      subst ht
      simp at hc
    | cons y t2 =>
      simp only [List.cons_append] at ht
      injection ht with h1 h2
      exact ih ⟨t2, h2⟩

lemma pngSuffix_eq : pngSuffix = '.' :: pngExt := by decide

lemma rustExtension_png {name : Str} (h : rustExtension name = some pngExt) :
    endsWith name pngSuffix = true := by
  unfold rustExtension at h
  cases hsplit : splitOnce '.' name.reverse with
  | none => rw [hsplit] at h; simp at h
  | some p =>
    rw [hsplit] at h
    by_cases hs : p.2 = []
    · simp [hs] at h
    · simp [hs] at h
      obtain ⟨hdecomp, _⟩ := splitOnce_sound hsplit
      have hname : name = p.2.reverse ++ pngSuffix := by
        have := congrArg List.reverse hdecomp
        simp at this
        rw [this, pngSuffix_eq, h]
      rw [endsWith_iff, hname]
      exact ⟨p.2.reverse, rfl⟩

/-! ### Lemmas about the candidate feed -/

lemma histLoop_acc (assets : Str) (u : List (Str × Str)) (l : List Str) :
    ∀ acc, histLoop assets u acc l = (histLoop assets u [] l).map (fun L => acc ++ L) := by
  induction l with
  | nil => intro acc; simp [histLoop, Except.map]
  | cons e rest ih =>
    intro acc
    by_cases hp : endsWith e pngSuffix = true
    · simp only [histLoop, hp, if_true]
      rw [ih (acc ++ [pngLine assets e]), ih ([] ++ [pngLine assets e])]
      cases histLoop assets u [] rest <;> simp [Except.map]
    · cases hl : lookupAssoc u e with
      | none => simp [histLoop, hp, hl, Except.map]
      | some v =>
        simp only [histLoop, hp, Bool.false_eq_true, if_false, hl]
        rw [ih (acc ++ [unicodeLine e v]), ih ([] ++ [unicodeLine e v])]
        cases histLoop assets u [] rest <;> simp [Except.map]

lemma histLoop_ok (assets : Str) (u : List (Str × Str)) :
    ∀ {l L}, histLoop assets u [] l = .ok L → L = l.filterMap (histLineOf assets u) := by
  intro l
  induction l with
  | nil => intro L h; simp [histLoop] at h; rw [h]; rfl
  | cons e rest ih =>
    intro L h
    by_cases hp : endsWith e pngSuffix = true
    · simp only [histLoop, hp, if_true] at h
      rw [histLoop_acc] at h
      cases hrest : histLoop assets u [] rest with
      | error er => rw [hrest] at h; simp [Except.map] at h
      | ok L2 =>
        rw [hrest] at h
        simp [Except.map] at h
        simp [h.symm, List.filterMap_cons, histLineOf, hp, ih hrest]
    · cases hl : lookupAssoc u e with
      | none => simp [histLoop, hp, hl] at h
      | some v =>
        simp only [histLoop, hp, Bool.false_eq_true, if_false, hl] at h
        rw [histLoop_acc] at h
        cases hrest : histLoop assets u [] rest with
        | error er => rw [hrest] at h; simp [Except.map] at h
        | ok L2 =>
          rw [hrest] at h
          simp [Except.map] at h
          simp [h.symm, List.filterMap_cons, histLineOf, hp, hl, ih hrest]

lemma histLoop_panics (assets : Str) (u : List (Str × Str)) (e : Str)
    (hp : endsWith e pngSuffix = false) (hl : lookupAssoc u e = none) :
    ∀ (acc : List Str) (l : List Str), e ∈ l → histLoop assets u acc l = .error .panicked := by
  intro acc l
  induction l generalizing acc with
  | nil => intro h; cases h
  | cons x rest ih =>
    intro hmem
    rcases List.mem_cons.mp hmem with rfl | hmem2
    · simp [histLoop, hp, hl]
    · by_cases hx : endsWith x pngSuffix = true
      · simp only [histLoop, hx, if_true]
        exact ih _ hmem2
      · simp only [histLoop, hx, if_false, Bool.false_eq_true]
        cases hlx : lookupAssoc u x with
        | none => rfl
        | some v => exact ih _ hmem2

lemma foldl_append_map {α : Type} (f : α → Str) :
    ∀ (l : List α) (acc : List Str), l.foldl (fun a x => a ++ [f x]) acc = acc ++ l.map f := by
  intro l
  induction l with
  | nil => intro acc; simp
  | cons x xs ih => intro acc; simp [List.foldl, ih]

lemma feedLines_ok {assets : Str} {u : List (Str × Str)} {r p : List Str} {ls : List Str}
    (h : feedLines assets u r p = .ok ls) :
    ∃ L, histLoop assets u [] r = .ok L ∧
      ls = L ++ p.map (pngLine assets)
        ++ (u.filter (fun kv => !(memStr kv.1 r))).map (fun kv => unicodeLine kv.1 kv.2) := by
  unfold feedLines at h
  cases hh : histLoop assets u [] r with
  | error e => rw [hh] at h; simp at h
  | ok L =>
    rw [hh] at h
    refine ⟨L, rfl, ?_⟩
    simp only [foldl_append_map] at h
    injection h with h2
    rw [← h2]

/-! ### Lemmas about the ranked history sort -/

lemma orderedInsert_filter_pos (x : Str × Nat) (c : Nat) (hx : x.2 = c) :
    ∀ l : List (Str × Nat),
      (List.orderedInsert countGE x l).filter (fun e => decide (e.2 = c)) =
        x :: l.filter (fun e => decide (e.2 = c)) := by
  intro l
  induction l with
  | nil => simp [hx]
  | cons y ys ih =>
    by_cases hr : countGE x y
    · simp [List.orderedInsert, hr, hx]
    · have hy : ¬(y.2 = c) := fun he => hr (le_of_eq (he.trans hx.symm))
      simp [List.orderedInsert, hr, hy, ih]

lemma orderedInsert_filter_neg (x : Str × Nat) (c : Nat) (hx : ¬(x.2 = c)) :
    ∀ l : List (Str × Nat),
      (List.orderedInsert countGE x l).filter (fun e => decide (e.2 = c)) =
        l.filter (fun e => decide (e.2 = c)) := by
  intro l
  induction l with
  | nil => simp [hx]
  | cons y ys ih =>
    by_cases hr : countGE x y
    · simp [List.orderedInsert, hr, hx]
    · simp only [List.orderedInsert, hr, if_false]
      rw [List.filter_cons, List.filter_cons, ih]

lemma insertionSort_filter (history : List (Str × Nat)) (c : Nat) :
    (List.insertionSort countGE history).filter (fun e => decide (e.2 = c)) =
      history.filter (fun e => decide (e.2 = c)) := by
  induction history with
  | nil => rfl
  | cons x xs ih =>
    simp only [List.insertionSort]
    by_cases hx : x.2 = c
    · rw [orderedInsert_filter_pos x c hx, ih]
      simp [List.filter, hx]
    · rw [orderedInsert_filter_neg x c hx, ih]
      simp [List.filter, hx]

lemma sorted_history_perm (history : List (Str × Nat)) :
    List.Perm (sorted_history history) (history.map Prod.fst) :=
  (List.perm_insertionSort countGE history).map Prod.fst

lemma mem_sorted_history {x : Str} {history : List (Str × Nat)} :
    x ∈ sorted_history history ↔ x ∈ history.map Prod.fst :=
  (sorted_history_perm history).mem_iff

/-! ### Lemmas about PNG candidate collection -/

lemma collectLoop_mem {fo : List Str} {x : Str} :
    ∀ {entries : List DirEntry}, x ∈ collectLoop fo entries ↔
      ∃ e, e ∈ entries ∧ e.name = x ∧ e.isFile = true ∧
        rustExtension e.name = some pngExt ∧ x ∉ fo := by
  intro entries
  induction entries with
  | nil => simp [collectLoop]
  | cons e es ih =>
    cases h1 : memStr e.name fo with
    | true =>
      simp only [collectLoop, h1, if_true]
      rw [ih]
      constructor
      · rintro ⟨e2, hm, hrest⟩
        exact ⟨e2, List.mem_cons_of_mem e hm, hrest⟩
      · rintro ⟨e2, hm, hname, hfile, hext, hfo⟩
        rcases List.mem_cons.mp hm with rfl | hm2
        · exact absurd (hname ▸ memStr_iff.mp h1) hfo
        · exact ⟨e2, hm2, hname, hfile, hext, hfo⟩
    | false =>
      by_cases h2 : (e.isFile && decide (rustExtension e.name = some pngExt)) = true
      · simp only [collectLoop, h1, Bool.false_eq_true, if_false, h2, if_true]
        simp only [Bool.and_eq_true, decide_eq_true_eq] at h2
        rw [List.mem_cons, ih]
        constructor
        · rintro (rfl | ⟨e2, hm, hrest⟩)
          · exact ⟨e, List.mem_cons_self e es, rfl, h2.1, h2.2, memStr_false_iff.mp h1⟩
          · exact ⟨e2, List.mem_cons_of_mem e hm, hrest⟩
        · rintro ⟨e2, hm, hname, hfile, hext, hfo⟩
          rcases List.mem_cons.mp hm with rfl | hm2
          · exact Or.inl hname.symm
          · exact Or.inr ⟨e2, hm2, hname, hfile, hext, hfo⟩
      · simp only [collectLoop, h1, Bool.false_eq_true, if_false, h2]
        rw [ih]
        constructor
        · rintro ⟨e2, hm, hrest⟩
          exact ⟨e2, List.mem_cons_of_mem e hm, hrest⟩
        · rintro ⟨e2, hm, hname, hfile, hext, hfo⟩
          rcases List.mem_cons.mp hm with rfl | hm2
          · exact absurd (by simp [hfile, hext]) h2
          · exact ⟨e2, hm2, hname, hfile, hext, hfo⟩

lemma collectLoop_sublist (fo : List Str) :
    ∀ entries : List DirEntry, List.Sublist (collectLoop fo entries) (entries.map DirEntry.name) := by
  intro entries
  induction entries with
  | nil => simp [collectLoop]
  | cons e es ih =>
    cases h1 : memStr e.name fo with
    | true =>
      simp only [collectLoop, h1, if_true, List.map_cons]
      exact ih.cons e.name
    | false =>
      by_cases h2 : (e.isFile && decide (rustExtension e.name = some pngExt)) = true
      · simp only [collectLoop, h1, Bool.false_eq_true, if_false, h2, if_true, List.map_cons]
        exact ih.cons₂ e.name
      · simp only [collectLoop, h1, Bool.false_eq_true, if_false, h2, List.map_cons]
        exact ih.cons e.name

/-! ### Lemmas about the history mapping -/

lemma getCount_incr (history : List (Str × Nat)) (k : Str)
    (h : getCount history k + 1 < u32Mod) :
    getCount (incrHistory history k) k = getCount history k + 1 := by
  induction history with
  | nil =>
    simp only [incrHistory, getCount, lookupAssoc, if_pos rfl, u32Add1, Option.getD_some]
    decide
  | cons p rest ih =>
    obtain ⟨k2, c⟩ := p
    by_cases h2 : k2 = k
    · have hc : getCount ((k2, c) :: rest) k = c := by simp [getCount, lookupAssoc, h2]
      rw [hc] at h ⊢
      simp [incrHistory, h2, getCount, lookupAssoc, u32Add1, Nat.mod_eq_of_lt h]
    · simp only [incrHistory, h2, if_false]
      simp only [getCount, lookupAssoc, h2, if_false] at ih h ⊢
      exact ih h

lemma getCount_eq_zero {history : List (Str × Nat)} {k : Str}
    (h : k ∉ history.map Prod.fst) : getCount history k = 0 := by
  induction history with
  | nil => rfl
  | cons p rest ih =>
    obtain ⟨k2, c⟩ := p
    have h2 : ¬ k2 = k := by
      rintro rfl
      exact h (List.mem_map.mpr ⟨(k2, c), List.mem_cons_self _ _, rfl⟩)
    simp only [getCount, lookupAssoc, h2, if_false]
    exact ih (fun hm => h (List.mem_cons_of_mem _ hm))

lemma resolve_nil : resolveSelection [] = .error .invalidData := by decide

/-! ### The claims -/

/-- C1: For every trimmed, non-empty picker output line: a line ending in
".png" resolves to PNG kind with identity equal to the whole line; a non-PNG
line that decomposes as g ++ space ++ n with no space in g (the split at the
first space) resolves to the pair (g, n), and the identity whose history
count the main flow then increments is n — the name, the second component —
not the grapheme g; a non-PNG line containing no space makes the run fail
with the invalid-data error. -/
theorem claim_C1_resolver (output : Str) (hne : output ≠ []) :
    (endsWith output pngSuffix = true → resolveSelection output = .ok (output, output)) ∧
    (∀ g n : Str, endsWith output pngSuffix = false → output = g ++ ' ' :: n → ' ' ∉ g →
      resolveSelection output = .ok (g, n)) ∧
    (endsWith output pngSuffix = false → ' ' ∉ output →
      resolveSelection output = .error .invalidData) ∧
    (∀ (g n : Str) (readFile : Str → Option (List Nat)) (st : Nat) (assets : Str) (cp : Bool)
      (history : List (Str × Nat)) (r : RunOutcome),
      resolveSelection output = .ok (g, n) →
      mainAfterPicker readFile st assets cp output history = .ok r →
      r.history = incrHistory history n) := by
  refine ⟨?_, ?_, ?_, ?_⟩
  · intro hp
    simp [resolveSelection, hp]
  · intro g n hp heq hsp
    subst heq
    simp [resolveSelection, hp, splitOnce_append n hsp]
  · intro hp hns
    simp [resolveSelection, hp, splitOnce_eq_none hns]
  · intro g n readFile st assets cp history r hres hmain
    cases hcopy : copy_emoji_to_clipboard readFile g assets cp with
    | error e =>
      simp only [mainAfterPicker, if_neg hne, hres, hcopy] at hmain
      exact absurd hmain (by simp)
    | ok cmd =>
      simp only [mainAfterPicker, if_neg hne, hres, hcopy] at hmain
      injection hmain with h2
      rw [← h2]

/-- Witness for C1 at concrete selections of all three shapes, plus the
history-identity conjunct at a concrete run. -/
theorem claim_C1_resolver_witness :
    ("x.png".toList ≠ [] ∧
      resolveSelection "x.png".toList = .ok ("x.png".toList, "x.png".toList)) ∧
    ("G grin".toList ≠ [] ∧
      resolveSelection "G grin".toList = .ok ("G".toList, "grin".toList)) ∧
    ("nospace".toList ≠ [] ∧
      resolveSelection "nospace".toList = .error .invalidData) ∧
    (⟨some (.textPlain "G".toList, 0), true, [("grin".toList, 1)], true⟩ :
        RunOutcome).history = incrHistory [] "grin".toList :=
  ⟨⟨by decide, (claim_C1_resolver _ (by decide)).1 (by decide)⟩,
   ⟨by decide,
     (claim_C1_resolver _ (by decide)).2.1 "G".toList "grin".toList (by decide) (by decide)
       (by decide)⟩,
   ⟨by decide, (claim_C1_resolver _ (by decide)).2.2.1 (by decide) (by decide)⟩,
   (claim_C1_resolver "G grin".toList (by decide)).2.2.2 "G".toList "grin".toList
     (fun _ => none) 0 "A".toList true []
     ⟨some (.textPlain "G".toList, 0), true, [("grin".toList, 1)], true⟩
     (by decide) (by decide)⟩

/-- C5: When the picker's trimmed output is empty, the run ends successfully
(the Ok result, exit code 0) with no clipboard invocation, no notification,
the history mapping unchanged and the history file not rewritten
(main.rs lines 50-52 return before any of those effects). -/
theorem claim_C5_empty_output (readFile : Str → Option (List Nat)) (st : Nat)
    (assets : Str) (cp : Bool) (history : List (Str × Nat)) :
    mainAfterPicker readFile st assets cp [] history = .ok ⟨none, false, history, false⟩ := rfl

/-- C6: The Clipboard Dispatcher (main.rs lines 87-122) uses exactly one of
three mechanisms, by entry kind and copy-mode flag: a non-PNG identity is
copied as text/plain with the grapheme text; a PNG identity in path-copy
mode as a text/uri-list holding the single absolute asset path under the
file URI scheme; a PNG identity in byte-copy mode as image/png with the full
contents streamed to the subprocess (a failed read aborts with the I/O
error). -/
theorem claim_C6_clipboard (readFile : Str → Option (List Nat)) (emoji assets : Str) (cp : Bool) :
    (endsWith emoji pngSuffix = false →
      copy_emoji_to_clipboard readFile emoji assets cp = .ok (.textPlain emoji)) ∧
    (endsWith emoji pngSuffix = true →
      copy_emoji_to_clipboard readFile emoji assets true =
        .ok (.uriList ("file://".toList ++ pathJoin assets emoji))) ∧
    (∀ bytes, endsWith emoji pngSuffix = true →
      readFile (pathJoin assets emoji) = some bytes →
      copy_emoji_to_clipboard readFile emoji assets false = .ok (.imagePng bytes)) ∧
    (endsWith emoji pngSuffix = true →
      readFile (pathJoin assets emoji) = none →
      copy_emoji_to_clipboard readFile emoji assets false = .error .ioError) := by
  refine ⟨?_, ?_, ?_, ?_⟩
  · intro hp; simp [copy_emoji_to_clipboard, hp]
  · intro hp; simp [copy_emoji_to_clipboard, hp]
  · intro bytes hp hread; simp [copy_emoji_to_clipboard, hp, hread]
  · intro hp hread; simp [copy_emoji_to_clipboard, hp, hread]

/-- Witness for C6 at a concrete identity for each of the three mechanisms. -/
theorem claim_C6_clipboard_witness :
    (endsWith "G".toList pngSuffix = false ∧
      copy_emoji_to_clipboard (fun _ => none) "G".toList "A".toList true =
        .ok (.textPlain "G".toList)) ∧
    (endsWith "x.png".toList pngSuffix = true ∧
      copy_emoji_to_clipboard (fun _ => none) "x.png".toList "A".toList true =
        .ok (.uriList "file://A/x.png".toList)) ∧
    copy_emoji_to_clipboard (fun _ => some [137, 80]) "x.png".toList "A".toList false =
      .ok (.imagePng [137, 80]) :=
  ⟨⟨by decide, (claim_C6_clipboard (fun _ => none) "G".toList "A".toList true).1 (by decide)⟩,
   ⟨by decide, by
     have h := (claim_C6_clipboard (fun _ => none) "x.png".toList "A".toList true).2.1 (by decide)
     simpa using h⟩,
   (claim_C6_clipboard (fun _ => some [137, 80]) "x.png".toList "A".toList false).2.2.1
     [137, 80] (by decide) rfl⟩

/-- C8: PNG candidate collection (main.rs lines 172-190): a missing assets
directory yields the empty candidate list as a success, and for an existing
directory a name is collected exactly when some listed entry bears it, is a
regular file, has extension "png", and is not among the filtered-out ranked
history identities — so non-PNG files and subdirectories are never
included. -/
theorem claim_C8_png_collection (fo : List Str) :
    collect_png_emojis_and_filter none fo = [] ∧
    (∀ (entries : List DirEntry) (name : Str),
      name ∈ collect_png_emojis_and_filter (some entries) fo ↔
        ∃ e, e ∈ entries ∧ e.name = name ∧ e.isFile = true ∧
          rustExtension e.name = some pngExt ∧ name ∉ fo) :=
  ⟨rfl, fun _ _ => collectLoop_mem⟩

/-- Witness for C8 on a directory holding a kept PNG file, a non-PNG file, a
subdirectory named like a PNG, and a history-filtered PNG. -/
theorem claim_C8_png_collection_witness :
    collect_png_emojis_and_filter
        (some [⟨"a.png".toList, true⟩, ⟨"b.txt".toList, true⟩, ⟨"c.png".toList, false⟩,
          ⟨"d.png".toList, true⟩])
        ["d.png".toList] =
      ["a.png".toList] ∧
    ("a.png".toList ∈ collect_png_emojis_and_filter
        (some [⟨"a.png".toList, true⟩, ⟨"b.txt".toList, true⟩, ⟨"c.png".toList, false⟩,
          ⟨"d.png".toList, true⟩])
        ["d.png".toList] ↔
      ∃ e, e ∈ [⟨"a.png".toList, true⟩, ⟨"b.txt".toList, true⟩, ⟨"c.png".toList, false⟩,
          (⟨"d.png".toList, true⟩ : DirEntry)] ∧ e.name = "a.png".toList ∧ e.isFile = true ∧
        rustExtension e.name = some pngExt ∧ "a.png".toList ∉ ["d.png".toList]) :=
  ⟨by decide,
   (claim_C8_png_collection ["d.png".toList]).2
     [⟨"a.png".toList, true⟩, ⟨"b.txt".toList, true⟩, ⟨"c.png".toList, false⟩,
       ⟨"d.png".toList, true⟩]
     "a.png".toList⟩

/-- C9: Command-line parsing (main.rs lines 124-138): the first positional
argument selects the picker, falling back to the default "fuzzel" when
absent or not in the supported-picker set; the mode flag is byte-copy
(false) exactly when a second positional argument is present and equals
"false" case-insensitively, and path-copy (true) otherwise. -/
theorem claim_C9_parse_args (args : List Str) :
    ((parse_args args).2 = false ↔ ∃ a, args[2]? = some a ∧ lowerStr a = "false".toList) ∧
    (∀ p, args[1]? = some p → p ∈ SUPPORTED_PICKERS → (parse_args args).1 = p) ∧
    (∀ p, args[1]? = some p → p ∉ SUPPORTED_PICKERS → (parse_args args).1 = "fuzzel".toList) ∧
    (args[1]? = none → (parse_args args).1 = "fuzzel".toList) := by
  refine ⟨?_, ?_, ?_, ?_⟩
  · cases h2 : args[2]? with
    | none => simp [parse_args, h2]
    | some a => simp [parse_args, h2]
  · intro p h1 hp
    simp [parse_args, h1, memStr_iff.mpr hp]
  · intro p h1 hp
    have hm : memStr p SUPPORTED_PICKERS = false := memStr_false_iff.mpr hp
    simp [parse_args, h1, hm]
    rfl
  · intro h1
    simp [parse_args, h1]
    rfl

/-- Witness for C9: a recognized picker with a case-insensitive "false"
flag, an unrecognized picker, and an absent picker argument. -/
theorem claim_C9_parse_args_witness :
    (parse_args ["rustoji".toList, "bemenu".toList, "FaLsE".toList]).1 = "bemenu".toList ∧
    (parse_args ["rustoji".toList, "bemenu".toList, "FaLsE".toList]).2 = false ∧
    (parse_args ["rustoji".toList, "rofi".toList]).1 = "fuzzel".toList ∧
    (parse_args ["rustoji".toList]).1 = "fuzzel".toList :=
  ⟨(claim_C9_parse_args _).2.1 "bemenu".toList (by decide) (by decide),
   (claim_C9_parse_args ["rustoji".toList, "bemenu".toList, "FaLsE".toList]).1.mpr
     ⟨"FaLsE".toList, by decide, by decide⟩,
   (claim_C9_parse_args _).2.2.1 "rofi".toList (by decide) (by decide),
   (claim_C9_parse_args ["rustoji".toList]).2.2.2 (by decide)⟩

/-- C3: Candidate emission order (main.rs lines 33-35 and 210-233): a
successful feed consists of the ranked history candidates first, each in the
line format of its type, then the scanned PNG candidates, then the catalog
entries not already represented in history in catalog iteration order;
and the ranked history sequence is the history mapping sorted by descending
usage count — a permutation of it, Sorted under countGE, with equal counts
kept stable in the fixed input iteration order. -/
theorem claim_C3_emission_order (assets : Str) (u : List (Str × Str))
    (history : List (Str × Nat)) (pngEmojis : List Str) (ls : List Str)
    (hok : feedLines assets u (sorted_history history) pngEmojis = .ok ls) :
    ls = (sorted_history history).filterMap (histLineOf assets u)
        ++ pngEmojis.map (pngLine assets)
        ++ (u.filter (fun kv => !(memStr kv.1 (sorted_history history)))).map
            (fun kv => unicodeLine kv.1 kv.2) ∧
    List.Sorted countGE (List.insertionSort countGE history) ∧
    List.Perm (List.insertionSort countGE history) history ∧
    (∀ c, (List.insertionSort countGE history).filter (fun e => decide (e.2 = c)) =
      history.filter (fun e => decide (e.2 = c))) := by
  obtain ⟨L, hL, hdecomp⟩ := feedLines_ok hok
  refine ⟨?_, List.sorted_insertionSort countGE history,
    List.perm_insertionSort countGE history, insertionSort_filter history⟩
  rw [hdecomp, histLoop_ok assets u hL]

/-- Witness for C3 on a feed mixing a Unicode history entry, a scanned PNG
and a fresh catalog entry. -/
theorem claim_C3_emission_order_witness :
    feedLines "A".toList [("grin".toList, "G".toList), ("x".toList, "Y".toList)]
        (sorted_history [("grin".toList, 1)]) ["h.png".toList] =
      .ok ["G grin".toList, "h.png\x00icon\x1fA/h.png".toList, "Y x".toList] ∧
    ["G grin".toList, "h.png\x00icon\x1fA/h.png".toList, "Y x".toList] =
      (sorted_history [("grin".toList, 1)]).filterMap
          (histLineOf "A".toList [("grin".toList, "G".toList), ("x".toList, "Y".toList)])
        ++ ["h.png".toList].map (pngLine "A".toList)
        ++ ([("grin".toList, "G".toList), ("x".toList, "Y".toList)].filter
            (fun kv => !(memStr kv.1 (sorted_history [("grin".toList, 1)])))).map
            (fun kv => unicodeLine kv.1 kv.2) :=
  ⟨by decide,
   (claim_C3_emission_order "A".toList [("grin".toList, "G".toList), ("x".toList, "Y".toList)]
     [("grin".toList, 1)] ["h.png".toList]
     ["G grin".toList, "h.png\x00icon\x1fA/h.png".toList, "Y x".toList] (by decide)).1⟩

/-- C7: A history identity that does not end in ".png" and is absent from
the Unicode catalog makes the candidate emission abort fatally (the unwrap
panic at main.rs line 217); such an entry is never silently skipped. -/
theorem claim_C7_missing_catalog_fatal (assets : Str) (u : List (Str × Str))
    (history : List (Str × Nat)) (pngEmojis : List Str) (e : Str)
    (hmem : e ∈ history.map Prod.fst)
    (hp : endsWith e pngSuffix = false)
    (hl : lookupAssoc u e = none) :
    feedLines assets u (sorted_history history) pngEmojis = .error .panicked := by
  have hmem2 : e ∈ sorted_history history := mem_sorted_history.mpr hmem
  unfold feedLines
  rw [histLoop_panics assets u e hp hl [] _ hmem2]

/-- Witness for C7: a history identity "ghost" with an empty catalog. -/
theorem claim_C7_missing_catalog_fatal_witness :
    "ghost".toList ∈ ([("ghost".toList, 1)].map Prod.fst) ∧
    feedLines "A".toList [] (sorted_history [("ghost".toList, 1)]) [] = .error .panicked :=
  ⟨by decide,
   claim_C7_missing_catalog_fatal "A".toList [] [("ghost".toList, 1)] [] "ghost".toList
     (by decide) (by decide) rfl⟩

/-- C10 counterexample: at a stored count of u32::MAX = 4294967295
(reachable, since the history JSON deserializes into u32) the release-build
`+= 1` wraps, so the persisted count for the resolved identity is 0, not the
old count plus one — the unconditional incremented-by-one claim fails. -/
theorem claim_C10_history_update_counterexample :
    mainAfterPicker (fun _ => none) 0 "A".toList true "x.png".toList
        [("x.png".toList, 4294967295)] =
      .ok ⟨some (.uriList "file://A/x.png".toList, 0), true, [("x.png".toList, 0)], true⟩ ∧
    getCount [("x.png".toList, 0)] "x.png".toList ≠
      getCount [("x.png".toList, 4294967295)] "x.png".toList + 1 :=
  ⟨by decide, by decide⟩

/-- C10 (amended): For every resolved selection whose clipboard command was
spawned and written successfully, whose resolved identity's current history
count is below u32::MAX, and for every clipboard exit status, the history
count of that identity is incremented by one (inserted at one when absent)
and the history file is rewritten — a failing clipboard exit status does not
prevent the history update (main.rs lines 68-77 never inspect the status).
At u32::MAX the u32 counter instead wraps to 0 (release) while still
persisting. -/
theorem claim_C10_history_update (readFile : Str → Option (List Nat)) (assets : Str)
    (cp : Bool) (output : Str) (history : List (Str × Nat)) (emoji emojiName : Str)
    (cmd : ClipCmd)
    (hres : resolveSelection output = .ok (emoji, emojiName))
    (hcopy : copy_emoji_to_clipboard readFile emoji assets cp = .ok cmd)
    (hlt : getCount history emojiName + 1 < u32Mod) :
    ∀ st : Nat, mainAfterPicker readFile st assets cp output history =
        .ok ⟨some (cmd, st), true, incrHistory history emojiName, true⟩ ∧
      getCount (incrHistory history emojiName) emojiName = getCount history emojiName + 1 := by
  intro st
  have hne : output ≠ [] := by
    rintro rfl
    rw [resolve_nil] at hres
    simp at hres
  refine ⟨?_, getCount_incr history emojiName hlt⟩
  simp only [mainAfterPicker, if_neg hne, hres, hcopy]

/-- Witness for the amended C10: a PNG selection under path-copy mode with a
nonzero clipboard exit status still increments and persists its in-range
history count. -/
theorem claim_C10_history_update_witness :
    mainAfterPicker (fun _ => none) 9 "A".toList true "x.png".toList [("x.png".toList, 2)] =
      .ok ⟨some (.uriList "file://A/x.png".toList, 9), true,
        incrHistory [("x.png".toList, 2)] "x.png".toList, true⟩ ∧
    getCount (incrHistory [("x.png".toList, 2)] "x.png".toList) "x.png".toList =
      getCount [("x.png".toList, 2)] "x.png".toList + 1 :=
  claim_C10_history_update (fun _ => none) "A".toList true "x.png".toList
    [("x.png".toList, 2)] "x.png".toList "x.png".toList
    (.uriList "file://A/x.png".toList) (by decide) (by decide) (by decide) 9

/-- C2 counterexample: the catalog entry with key (display name) "c" and
value (grapheme) "a b" — a grapheme containing a space — is not in the
empty history and its emitted candidate line is "a b c"; fed back through
the resolver, the clipboard receives the text "a", not the grapheme "a b",
and the history identity incremented is "b c", not the name "c", so the
round-trip claim fails as stated. -/
theorem claim_C2_roundtrip_counterexample :
    feedLines "A".toList [("c".toList, "a b".toList)] (sorted_history []) [] =
      .ok [unicodeLine "c".toList "a b".toList] ∧
    mainAfterPicker (fun _ => none) 0 "A".toList true (unicodeLine "c".toList "a b".toList) [] =
      .ok ⟨some (.textPlain "a".toList, 0), true, [("b c".toList, 1)], true⟩ ∧
    "a".toList ≠ "a b".toList ∧ "b c".toList ≠ "c".toList :=
  ⟨by decide, by decide, by decide, by decide⟩

/-- C2 (amended): for every catalog entry with display name n (the key) and
grapheme g (the value) that is not in history, provided g contains no space
and neither g nor n ends in ".png", the candidate line emitted for it in a
successful feed, returned unchanged by the picker, resolves to (g, n); the
clipboard then receives g as text/plain and the history count incremented
and persisted is n's. -/
theorem claim_C2_roundtrip_amended (assets : Str) (u : List (Str × Str))
    (history : List (Str × Nat)) (pngEmojis : List Str) (ls : List Str)
    (readFile : Str → Option (List Nat)) (st : Nat) (cp : Bool) (k g : Str)
    (hmem : (k, g) ∈ u)
    (hnh : k ∉ history.map Prod.fst)
    (hsp : ' ' ∉ g)
    (hgp : endsWith g pngSuffix = false)
    (hkp : endsWith k pngSuffix = false)
    (hok : feedLines assets u (sorted_history history) pngEmojis = .ok ls) :
    unicodeLine k g ∈ ls ∧
    resolveSelection (unicodeLine k g) = .ok (g, k) ∧
    mainAfterPicker readFile st assets cp (unicodeLine k g) history =
      .ok ⟨some (.textPlain g, st), true, incrHistory history k, true⟩ ∧
    getCount (incrHistory history k) k = getCount history k + 1 := by
  have hline2 : endsWith (g ++ ' ' :: k) pngSuffix = false := by
    cases hEW : endsWith (g ++ ' ' :: k) pngSuffix with
    | false => rfl
    | true =>
      exfalso
      have hsuf : pngSuffix <:+ (g ++ ' ' :: k) := endsWith_iff.mp hEW
      have hsk : pngSuffix <:+ k := suffix_through_sep (by decide) g hsuf
      rw [endsWith_iff.mpr hsk] at hkp
      exact Bool.noConfusion hkp
  have hresolve : resolveSelection (unicodeLine k g) = .ok (g, k) := by
    show resolveSelection (g ++ ' ' :: k) = .ok (g, k)
    simp [resolveSelection, hline2, splitOnce_append k hsp]
  have hknr : k ∉ sorted_history history := fun hmem2 => hnh (mem_sorted_history.mp hmem2)
  obtain ⟨L, hL, hdecomp⟩ := feedLines_ok hok
  have hfilter : (k, g) ∈ u.filter (fun kv => !(memStr kv.1 (sorted_history history))) := by
    rw [List.mem_filter]
    refine ⟨hmem, ?_⟩
    rw [memStr_false_iff.mpr hknr]
    rfl
  have hmem_ls : unicodeLine k g ∈ ls := by
    rw [hdecomp]
    exact List.mem_append.mpr (Or.inr (List.mem_map.mpr ⟨(k, g), hfilter, rfl⟩))
  have hne : unicodeLine k g ≠ [] := by
    show g ++ ' ' :: k ≠ []
    simp
  have hcopy : copy_emoji_to_clipboard readFile g assets cp = .ok (.textPlain g) := by
    simp [copy_emoji_to_clipboard, hgp]
  refine ⟨hmem_ls, hresolve, ?_, getCount_incr history k ?_⟩
  · simp only [mainAfterPicker, if_neg hne, hresolve, hcopy]
  · rw [getCount_eq_zero hnh]
    decide

/-- Witness for the amended C2 at the catalog entry with name "grin" and
grapheme "G" against an empty history. -/
theorem claim_C2_roundtrip_amended_witness :
    unicodeLine "grin".toList "G".toList ∈ [unicodeLine "grin".toList "G".toList] ∧
    resolveSelection (unicodeLine "grin".toList "G".toList) = .ok ("G".toList, "grin".toList) ∧
    mainAfterPicker (fun _ => none) 3 "A".toList true (unicodeLine "grin".toList "G".toList) [] =
      .ok ⟨some (.textPlain "G".toList, 3), true, incrHistory [] "grin".toList, true⟩ ∧
    getCount (incrHistory [] "grin".toList) "grin".toList = getCount [] "grin".toList + 1 :=
  claim_C2_roundtrip_amended "A".toList [("grin".toList, "G".toList)] [] []
    [unicodeLine "grin".toList "G".toList] (fun _ => none) 3 true "grin".toList "G".toList
    (by decide) (by decide) (by decide) (by decide) (by decide) (by decide)

/-- C4 counterexample: with an empty history, a directory holding the file
"a.png" and a catalog whose key "a.png" coincides with it, the identity
"a.png" is emitted by both the PNG-scan section and the Unicode section, so
the for-all-inputs deduplication claim fails. -/
theorem claim_C4_dedup_counterexample :
    ¬ (emittedIdentities (some [⟨"a.png".toList, true⟩])
        [("a.png".toList, "x".toList)] []).Nodup := by
  decide

/-- C4 (amended): over every history mapping (unique keys), catalog mapping
(unique keys) and directory listing (unique names), no identity appears
twice across the full candidate emission — the PNG-scan and Unicode
sections each exclude identities already in the ranked history prefix —
provided additionally that no catalog key ends in ".png" (scanned PNG
identities always end in ".png", so such a key could coincide with a
scanned file name, which the code does not deduplicate). -/
theorem claim_C4_dedup_amended (dir : Option (List DirEntry)) (u : List (Str × Str))
    (history : List (Str × Nat))
    (hh : (history.map Prod.fst).Nodup)
    (hd : ((dir.getD []).map DirEntry.name).Nodup)
    (hu : (u.map Prod.fst).Nodup)
    (hk : ∀ kv ∈ u, endsWith kv.1 pngSuffix = false) :
    (emittedIdentities dir u history).Nodup := by
  unfold emittedIdentities
  rw [List.nodup_append, List.nodup_append]
  have hAnodup : (sorted_history history).Nodup :=
    (sorted_history_perm history).nodup_iff.mpr hh
  have hmemB : ∀ a, a ∈ collect_png_emojis_and_filter dir (sorted_history history) →
      a ∉ sorted_history history ∧ endsWith a pngSuffix = true := by
    intro a ha
    cases dir with
    | none => cases ha
    | some entries =>
      obtain ⟨e, _, hname, _, hext, hfo⟩ := collectLoop_mem.mp ha
      exact ⟨hfo, hname ▸ rustExtension_png hext⟩
  have hmemC : ∀ a, a ∈ (u.filter
        (fun kv => !(memStr kv.1 (sorted_history history)))).map Prod.fst →
      a ∉ sorted_history history ∧ endsWith a pngSuffix = false := by
    intro a ha
    obtain ⟨kv, hkv, hfst⟩ := List.mem_map.mp ha
    obtain ⟨hkvu, hpred⟩ := List.mem_filter.mp hkv
    refine ⟨?_, hfst ▸ hk kv hkvu⟩
    intro hmem2
    rw [memStr_iff.mpr (hfst ▸ hmem2)] at hpred
    exact Bool.noConfusion hpred
  refine ⟨⟨hAnodup, ?_, ?_⟩, ?_, ?_⟩
  · cases hdir : dir with
    | none => exact List.nodup_nil
    | some entries =>
      have hd2 : (entries.map DirEntry.name).Nodup := by rw [hdir] at hd; exact hd
      exact hd2.sublist (collectLoop_sublist (sorted_history history) entries)
  · intro a haA haB
    exact (hmemB a haB).1 haA
  · exact (hu.sublist ((List.filter_sublist u).map Prod.fst))
  · intro a haAB haC
    rcases List.mem_append.mp haAB with haA | haB
    · exact (hmemC a haC).1 haA
    · exact Bool.noConfusion ((hmemB a haB).2.symm.trans (hmemC a haC).2)

/-- Witness for the amended C4: a history Unicode identity, a scanned PNG
file and a filtered catalog produce a duplicate-free identity emission. -/
theorem claim_C4_dedup_amended_witness :
    (emittedIdentities (some [⟨"b.png".toList, true⟩])
      [("g".toList, "G".toList), ("h".toList, "H".toList)] [("g".toList, 1)]).Nodup :=
  claim_C4_dedup_amended (some [⟨"b.png".toList, true⟩])
    [("g".toList, "G".toList), ("h".toList, "H".toList)] [("g".toList, 1)]
    (by decide) (by decide) (by decide) (by decide)

end Rustoji
